import Mathlib

/-!
Shallow embedding of the q.js functional collection library (src/q.js) and
verification of its specification claims.

JS values are modelled by `Q.JVal`: the primitive values undefined, null,
booleans, numbers and strings.  JS numbers are idealised as rationals plus a
NaN marker (`Q.JNum`).  JS objects (records) are modelled as association
lists from string keys to values (`Q.JRecord`); key lookup takes the first
matching entry and a missing key yields `undefined`, as in JS.  A key
function that can throw (property access on `undefined` raises a TypeError
in JS) is modelled as a function into `Except Q.JErr JVal`, and the JS value
`list[i]` of a possibly out-of-bounds index as an `Option`.
-/

namespace Q

/-- Model of a JS number: either NaN or an actual (idealised, exact) value. -/
inductive JNum : Type where
  | nan : JNum
  | of (q : ℚ) : JNum
deriving DecidableEq, Repr

/-- Model of a primitive JS value. -/
inductive JVal : Type where
  | undefined : JVal
  | null : JVal
  | bool (b : Bool) : JVal
  | num (n : JNum) : JVal
  | str (s : String) : JVal
deriving DecidableEq, Repr

/-- ToNumber on strings: trimmed empty string is 0, decimal integer strings
parse to their value, anything else is NaN (a simplification of the full JS
numeric grammar that keeps the cases the library exercises). -/
def strToNumber (s : String) : JNum :=
  let t := s.trim
  if t = "" then .of 0
  else
    match t.toInt? with
    | some n => .of (n : ℚ)
    | none => .nan

/-- The JS ToNumber coercion on primitive values. -/
def toNumber : JVal → JNum
  | .undefined => .nan
  | .null => .of 0
  | .bool b => .of (if b then 1 else 0)
  | .num n => n
  | .str s => strToNumber s

/-- Numeric equality: NaN is equal to nothing, including itself. -/
def numEq : JNum → JNum → Bool
  | .of a, .of b => decide (a = b)
  | _, _ => false

/-- The JS loose (coercing) equality == restricted to primitive values. -/
def looseEq : JVal → JVal → Bool
  | .undefined, .undefined => true
  | .undefined, .null => true
  | .null, .undefined => true
  | .null, .null => true
  | .num a, .num b => numEq a b
  | .str a, .str b => decide (a = b)
  | .bool a, .bool b => decide (a = b)
  | .num a, .str s => numEq a (strToNumber s)
  | .str s, .num b => numEq (strToNumber s) b
  | .bool a, .num b => numEq (.of (if a then 1 else 0)) b
  | .num a, .bool b => numEq a (.of (if b then 1 else 0))
  | .bool a, .str s => numEq (.of (if a then 1 else 0)) (strToNumber s)
  | .str s, .bool b => numEq (strToNumber s) (.of (if b then 1 else 0))
  | _, _ => false

/-- Numeric less-than: any comparison with NaN is false. -/
def numLt : JNum → JNum → Bool
  | .of a, .of b => decide (a < b)
  | _, _ => false

/-- The JS abstract relational comparison a < b: two strings compare
lexicographically, every other combination goes through ToNumber. -/
def jsLt : JVal → JVal → Bool
  | .str a, .str b => decide (a < b)
  | a, b => numLt (toNumber a) (toNumber b)

/-- The JS ToString coercion used for object property keys.  Integral
numbers print in decimal; non-integral rationals use the model printer
(the claims only depend on ToString being a fixed function). -/
def jsToString : JVal → String
  | .undefined => "undefined"
  | .null => "null"
  | .bool b => if b then "true" else "false"
  | .num .nan => "NaN"
  | .num (.of q) => if q.den = 1 then toString q.num else toString q
  | .str s => s

/-- Model of a JS object: an association list of string keys to values. -/
abbrev JRecord : Type := List (String × JVal)

/-- Lookup of a key in an association list (first matching entry). -/
def alistGet? {β : Type} (l : List (String × β)) (k : String) : Option β :=
  (l.find? (fun kv => kv.1 == k)).map Prod.snd

/-- JS property assignment on an association list: overwrite in place if the
key is present, append otherwise. -/
def alistSet {β : Type} (l : List (String × β)) (k : String) (v : β) : List (String × β) :=
  if l.any (fun kv => kv.1 == k) then
    l.map (fun kv => if kv.1 == k then (k, v) else kv)
  else l ++ [(k, v)]

/-- The declared keys of an association list, in order. -/
def keys {β : Type} (l : List (String × β)) : List String :=
  l.map Prod.fst

/-- JS property read obj[k] on a record: undefined when the key is absent. -/
def getF (r : JRecord) (k : String) : JVal :=
  (alistGet? r k).getD .undefined

/-- JS property write obj[k] = v on a record. -/
def setF (r : JRecord) (k : String) (v : JVal) : JRecord :=
  alistSet r k v

/-- Loop of Q.lay for a positive step: push i while i < end. -/
def layUp (endv i step : ℚ) (h : 0 < step) : List ℚ :=
  if hlt : i < endv then i :: layUp endv (i + step) step h else []
termination_by (⌈(endv - i) / step⌉).toNat
decreasing_by
  have hs : step ≠ 0 := ne_of_gt h
  have h1 : (endv - (i + step)) / step = (endv - i) / step - 1 := by
    rw [div_sub_one hs]
    congr 1
    ring
  have h2 : (0 : ℤ) < ⌈(endv - i) / step⌉ :=
    Int.ceil_pos.mpr (div_pos (by linarith) h)
  rw [h1, Int.ceil_sub_one]
  omega

/-- Loop of Q.lay for a negative step: push i while i > end. -/
def layDown (endv i step : ℚ) (h : step < 0) : List ℚ :=
  if hgt : endv < i then i :: layDown endv (i + step) step h else []
termination_by (⌈(i - endv) / (-step)⌉).toNat
decreasing_by
  have hs : (0 : ℚ) < -step := by linarith
  have h1 : ((i + step) - endv) / (-step) = (i - endv) / (-step) - 1 := by
    have hne : -step ≠ 0 := ne_of_gt hs
    rw [div_sub_one hne]
    congr 1
    ring
  have h2 : (0 : ℤ) < ⌈(i - endv) / (-step)⌉ :=
    Int.ceil_pos.mpr (div_pos (by linarith) hs)
  rw [h1, Int.ceil_sub_one]
  omega

/-- Q.lay(end, start, step).  Omitted arguments are `none`: start defaults
to 0 (start || 0) and step to 1 (step == null ? 1 : step); a zero step runs
neither loop and yields the empty list. -/
def lay (endv : ℚ) (start? step? : Option ℚ) : List ℚ :=
  let start := start?.getD 0
  let step := step?.getD 1
  if hpos : 0 < step then layUp endv start step hpos
  else if hneg : step < 0 then layDown endv start step hneg
  else []

/-- The scanning loop shared by Q.single and Q.filter: first element
satisfying the predicate. -/
def findFirst {α : Type} (fn : α → Bool) : List α → Option α
  | [] => none
  | x :: xs => if fn x then some x else findFirst fn xs

/-- Q.mold(spec): the predicate that an object loosely matches every key
declared by the specification object. -/
def mold (spec : JRecord) : JRecord → Bool :=
  fun obj => (keys spec).all (fun key => looseEq (getF spec key) (getF obj key))

/-- The function-or-specification argument accepted by Q.single and
Q.filter; the runtime typeof dispatch of the source is a tagged union here. -/
inductive PredArg : Type where
  | fn (f : JRecord → Bool)
  | spec (s : JRecord)

/-- The dispatch `typeof f == "function" ? f : Q.mold(f)`. -/
def resolvePred : PredArg → (JRecord → Bool)
  | .fn f => f
  | .spec s => mold s

/-- Q.single(f, list): first element matching the resolved predicate,
undefined (`none`) when nothing matches. -/
def single (p : PredArg) (list : List JRecord) : Option JRecord :=
  findFirst (resolvePred p) list

/-- Q.field(property) in its one-argument form: the getter for a property. -/
def field (property : String) : JRecord → JVal :=
  fun obj => getF obj property

/-- The one JS failure the library can hit: a TypeError from reading a
property of undefined. -/
inductive JErr : Type where
  | typeError
deriving DecidableEq, Repr

/-- A key function as passed to Q.min and Q.max: it receives the JS value
`list[i]` (which is undefined, i.e. `none`, out of bounds) and can throw.
This is `Q.field(f)` for a field-name argument. -/
def fieldFn (property : String) : Option JRecord → Except JErr JVal
  | none => .error .typeError
  | some r => .ok (getF r property)

/-- The scanning loop of Q.min: current = fn(list[i]); item and res are
replaced whenever current < res. -/
def minGo {α : Type} (fn : Option α → Except JErr JVal) (list : List α)
    (i : ℕ) (item : Option α) (res : JVal) : Except JErr (Option α) :=
  if h : i < list.length then
    match fn (some (list.get ⟨i, h⟩)) with
    | .error e => .error e
    | .ok current =>
      if jsLt current res then minGo fn list (i + 1) (some (list.get ⟨i, h⟩)) current
      else minGo fn list (i + 1) item res
  else .ok item
termination_by list.length - i

/-- Q.min(f, list): seeds item = list[0] and res = fn(list[0]) before the
loop, exactly as the source does, so fn is applied to undefined (`none`)
when the list is empty. -/
def min {α : Type} (fn : Option α → Except JErr JVal) (list : List α) :
    Except JErr (Option α) :=
  match fn list[0]? with
  | .error e => .error e
  | .ok res0 => minGo fn list 0 list[0]? res0

/-- The scanning loop of Q.max: replaces whenever current > res, i.e. when
res < current under the JS relational comparison. -/
def maxGo {α : Type} (fn : Option α → Except JErr JVal) (list : List α)
    (i : ℕ) (item : Option α) (res : JVal) : Except JErr (Option α) :=
  if h : i < list.length then
    match fn (some (list.get ⟨i, h⟩)) with
    | .error e => .error e
    | .ok current =>
      if jsLt res current then maxGo fn list (i + 1) (some (list.get ⟨i, h⟩)) current
      else maxGo fn list (i + 1) item res
  else .ok item
termination_by list.length - i

/-- Q.max(f, list), seeded like Q.min. -/
def max {α : Type} (fn : Option α → Except JErr JVal) (list : List α) :
    Except JErr (Option α) :=
  match fn list[0]? with
  | .error e => .error e
  | .ok res0 => maxGo fn list 0 list[0]? res0

/-- Index-threading helper for Q.map. -/
def mapFrom {α β : Type} (f : α → ℕ → β) (i : ℕ) : List α → List β
  | [] => []
  | x :: xs => f x i :: mapFrom f (i + 1) xs

/-- Q.map(f, list): res[i] = f(list[i], i). -/
def map {α β : Type} (f : α → ℕ → β) (list : List α) : List β :=
  mapFrom f 0 list

/-- Q.reduce(fn, res, arr): a left fold. -/
def reduce {α β : Type} (fn : β → α → β) (res : β) (arr : List α) : β :=
  arr.foldl fn res

/-- A JS value as it appears as a sequence element of Q.group: a primitive,
an object, or an array (whose own elements are again such values).  The
distinction matters because Array.prototype.concat spreads array arguments
and appends everything else as a single element. -/
inductive JItem : Type where
  | val (v : JVal) : JItem
  | obj (r : JRecord) : JItem
  | arr (elts : List JItem) : JItem

/-- Whether the value is an array, i.e. whether concat spreads it. -/
def JItem.isArr : JItem → Bool
  | .arr _ => true
  | _ => false

/-- Array.prototype.concat with one argument: an array argument is spread
one level into the receiver, any other argument is appended as one
element. -/
def jsConcat (l : List JItem) (x : JItem) : List JItem :=
  match x with
  | .arr elts => l ++ elts
  | x => l ++ [x]

/-- Q.group(f, list): folds the list into an object mapping the stringified
extracted key to a bucket; acc[key] is extended with acc[key].concat(elt)
(which spreads an array-valued elt) or seeded with [elt]. -/
def group (fn : JItem → JVal) (list : List JItem) : List (String × List JItem) :=
  reduce (fun acc elt =>
    let key := jsToString (fn elt)
    match alistGet? acc key with
    | some prev => alistSet acc key (jsConcat prev elt)
    | none => alistSet acc key [elt]) [] list

/-- The _keyValue decoration of Q.sort: pair every element with its key. -/
def keyValue (fn : JRecord → JVal) (list : List JRecord) : List (JVal × JRecord) :=
  map (fun item _ => (fn item, item)) list

/-- The _compareKeys comparator of Q.sort over decorated pairs. -/
def compareKeys (a b : JVal × JRecord) : Int :=
  if jsLt a.1 b.1 then -1 else if jsLt b.1 a.1 then 1 else 0

/-- Insertion of one element into a comparator-sorted list, placing it
before the first strictly greater element (so equal elements keep their
original relative order). -/
def insertCmp {β : Type} (c : β → β → Int) (x : β) : List β → List β
  | [] => [x]
  | y :: ys => if c y x < 0 then y :: insertCmp c x ys else x :: y :: ys

/-- Model of the host Array.prototype.sort with a comparator: a stable
comparison sort, as ECMAScript 2019 and later requires. -/
def hostSort {β : Type} (c : β → β → Int) : List β → List β
  | [] => []
  | x :: xs => insertCmp c x (hostSort c xs)

/-- The key specifier accepted by Q.sort: a callable or a field name, the
latter optionally carrying the descending marker prefix. -/
inductive SortKey : Type where
  | fn (f : JRecord → JVal)
  | name (s : String)

/-- JS unary numeric negation -1 * v: coerce with ToNumber, negate. -/
def jsNeg (v : JVal) : JVal :=
  .num (match toNumber v with
        | .nan => .nan
        | .of q => .of (-q))

/-- Key resolution of Q.sort: a callable is used directly; a field name
starting with the descending marker sorts by the negated numeric field,
any other field name by the field itself. -/
def resolveSortKey : SortKey → (JRecord → JVal)
  | .fn f => f
  | .name s =>
    match s.data with
    | '-' :: rest => fun d => jsNeg (getF d (String.mk rest))
    | _ => field s

/-- The Q.pluck("val", ...) step of Q.sort: strip the decoration. -/
def pluckVal (list : List (JVal × JRecord)) : List JRecord :=
  map (fun p _ => p.2) list

/-- Q.sort(f, list): decorate, host-sort by _compareKeys, undecorate. -/
def sort (f : SortKey) (list : List JRecord) : List JRecord :=
  pluckVal (hostSort compareKeys (keyValue (resolveSortKey f) list))

/-- Q.mixin(left, right): a fresh object receiving every key of left and
then every key of right; each assignment reads src[key] exactly as the
source loops do. -/
def mixin (left right : JRecord) : JRecord :=
  let res := left.foldl (fun acc kv => setF acc kv.1 (getF left kv.1)) []
  right.foldl (fun acc kv => setF acc kv.1 (getF right kv.1)) res

/-- The rKey = rKey || lKey defaulting of Q.amend (an absent or empty,
hence falsy, right key falls back to the left key). -/
def amendRKey (lKey : String) (rKey? : Option String) : String :=
  match rKey? with
  | none => lKey
  | some s => if s = "" then lKey else s

/-- Q.amend(left, right, lKey, rKey): for every left element, mix in the
first right element whose rKey field loosely equals the left lKey field,
or an empty object when none matches. -/
def amend (left right : List JRecord) (lKey : String) (rKey? : Option String) :
    List JRecord :=
  let rKey := amendRKey lKey rKey?
  map (fun l _ =>
    let found := single (.fn (fun r => looseEq (getF l lKey) (getF r rKey))) right
    mixin l (found.getD [])) left

/-! Basic lemmas about the value model. -/

theorem numLt_irrefl (n : JNum) : numLt n n = false := by
  cases n with
  | nan => rfl
  | of q => simp [numLt]

theorem jsLt_irrefl (v : JVal) : jsLt v v = false := by
  cases v <;> simp [jsLt, numLt_irrefl]

theorem numLt_asymm (a b : JNum) (h : numLt a b = true) : numLt b a = false := by
  cases a with
  | nan => simp [numLt] at h
  | of qa =>
    cases b with
    | nan => simp [numLt] at h
    | of qb =>
      simp only [numLt, decide_eq_true_eq] at h
      simp only [numLt, decide_eq_false_iff_not]
      exact lt_asymm h

theorem jsLt_asymm (a b : JVal) (h : jsLt a b = true) : jsLt b a = false := by
  cases a <;> cases b <;> simp only [jsLt] at h ⊢ <;>
    try exact numLt_asymm _ _ h
  case str.str sa sb =>
    simp only [decide_eq_true_eq] at h
    simp only [decide_eq_false_iff_not]
    exact lt_asymm h

/-! Association-list lemmas. -/

theorem alistGet?_cons {β : Type} (a : String × β) (l : List (String × β)) (k : String) :
    alistGet? (a :: l) k = if a.1 = k then some a.2 else alistGet? l k := by
  by_cases h : a.1 = k
  · simp [alistGet?, List.find?_cons_of_pos, h]
  · unfold alistGet?
    rw [List.find?_cons_of_neg _ (by simpa using h), if_neg h]

theorem find?_key_map_replace {β : Type} (l : List (String × β)) (k : String) (v : β) :
    ((l.map (fun kv => if kv.1 == k then (k, v) else kv)).find? (fun kv => kv.1 == k)) =
      (l.find? (fun kv => kv.1 == k)).map (fun _ => (k, v)) := by
  induction l with
  | nil => rfl
  | cons a l ih =>
    by_cases h : a.1 = k
    · simp [h, List.find?_cons_of_pos]
    · have hb : (a.1 == k) = false := by simpa using h
      simp only [List.map_cons, hb, Bool.false_eq_true, if_false]
      rw [List.find?_cons_of_neg _ (by simpa using h), List.find?_cons_of_neg _ (by simpa using h)]
      exact ih

theorem find?_key_map_replace_other {β : Type} (l : List (String × β)) (k k' : String)
    (v : β) (h : k' ≠ k) :
    ((l.map (fun kv => if kv.1 == k then (k, v) else kv)).find? (fun kv => kv.1 == k')) =
      l.find? (fun kv => kv.1 == k') := by
  induction l with
  | nil => rfl
  | cons a l ih =>
    by_cases ha : a.1 = k
    · have h1 : ((k, v) : String × β).1 ≠ k' := fun hk => h hk.symm
      have h2 : a.1 ≠ k' := by rw [ha]; exact fun hk => h hk.symm
      have hb : (a.1 == k) = true := by simpa using ha
      simp only [List.map_cons, hb, if_true]
      rw [List.find?_cons_of_neg _ (by simpa using h1), List.find?_cons_of_neg _ (by simpa using h2)]
      exact ih
    · have hb : (a.1 == k) = false := by simpa using ha
      simp only [List.map_cons, hb, Bool.false_eq_true, if_false]
      by_cases ha' : a.1 = k'
      · rw [List.find?_cons_of_pos _ (by simpa using ha'), List.find?_cons_of_pos _ (by simpa using ha')]
      · rw [List.find?_cons_of_neg _ (by simpa using ha'), List.find?_cons_of_neg _ (by simpa using ha')]
        exact ih

theorem alistGet?_set_self {β : Type} (l : List (String × β)) (k : String) (v : β) :
    alistGet? (alistSet l k v) k = some v := by
  unfold alistSet
  by_cases hany : l.any (fun kv => kv.1 == k)
  · rw [if_pos hany]
    unfold alistGet?
    rw [find?_key_map_replace]
    cases hfind : l.find? (fun kv => kv.1 == k) with
    | none =>
      obtain ⟨kv, hmem, hkv⟩ := List.any_eq_true.mp hany
      rw [List.find?_eq_none] at hfind
      exact absurd hkv (hfind kv hmem)
    | some w => simp
  · rw [if_neg hany]
    unfold alistGet?
    rw [List.find?_append]
    have hnone : l.find? (fun kv => kv.1 == k) = none := by
      rw [List.find?_eq_none]
      intro x hx
      intro hcontra
      exact hany (List.any_eq_true.mpr ⟨x, hx, hcontra⟩)
    rw [hnone, List.find?_cons_of_pos _ (by simp)]
    rfl

theorem alistGet?_set_other {β : Type} (l : List (String × β)) (k k' : String) (v : β)
    (h : k' ≠ k) : alistGet? (alistSet l k v) k' = alistGet? l k' := by
  unfold alistSet
  by_cases hany : l.any (fun kv => kv.1 == k)
  · rw [if_pos hany]
    unfold alistGet?
    rw [find?_key_map_replace_other _ _ _ _ h]
  · rw [if_neg hany]
    unfold alistGet?
    rw [List.find?_append]
    have h2 : (List.find? (fun kv => kv.1 == k') [(k, v)]) = none := by
      rw [List.find?_cons_of_neg _ (by simpa using Ne.symm h)]
      rfl
    rw [h2, Option.or_none]

theorem mem_keys_set {β : Type} (l : List (String × β)) (k' : String) (v : β) (k : String) :
    k ∈ keys (alistSet l k' v) ↔ k ∈ keys l ∨ k = k' := by
  unfold alistSet keys
  by_cases hany : l.any (fun kv => kv.1 == k')
  · rw [if_pos hany]
    simp only [List.map_map, List.mem_map, Function.comp_apply]
    constructor
    · rintro ⟨kv, hmem, hkv⟩
      by_cases hk : kv.1 = k'
      · have hb : (kv.1 == k') = true := by simpa using hk
        rw [hb, if_pos rfl] at hkv
        exact Or.inr hkv.symm
      · have hb : (kv.1 == k') = false := by simpa using hk
        simp only [hb, Bool.false_eq_true, if_false] at hkv
        exact Or.inl ⟨kv, hmem, hkv⟩
    · rintro (⟨kv, hmem, hkv⟩ | rfl)
      · by_cases hk' : kv.1 = k'
        · refine ⟨kv, hmem, ?_⟩
          have hb : (kv.1 == k') = true := by simpa using hk'
          rw [hb, if_pos rfl]
          rw [← hkv, hk']
        · have hb : (kv.1 == k') = false := by simpa using hk'
          refine ⟨kv, hmem, ?_⟩
          simp only [hb, Bool.false_eq_true, if_false]
          exact hkv
      · obtain ⟨kv, hmem, hkv⟩ := List.any_eq_true.mp hany
        refine ⟨kv, hmem, ?_⟩
        rw [hkv, if_pos rfl]
  · rw [if_neg hany]
    simp

theorem getF_set_self (r : JRecord) (k : String) (v : JVal) :
    getF (setF r k v) k = v := by
  simp [getF, setF, alistGet?_set_self]

theorem getF_set_other (r : JRecord) (k k' : String) (v : JVal) (h : k' ≠ k) :
    getF (setF r k v) k' = getF r k' := by
  simp [getF, setF, alistGet?_set_other _ _ _ _ h]

/-! Lemmas about the findFirst scanning loop. -/

theorem findFirst_eq_none {α : Type} (fn : α → Bool) (l : List α) :
    findFirst fn l = none ↔ ∀ x ∈ l, fn x = false := by
  induction l with
  | nil => simp [findFirst]
  | cons x xs ih =>
    by_cases h : fn x <;> simp [findFirst, h, ih]

theorem findFirst_eq_some {α : Type} (fn : α → Bool) (l : List α) (r : α)
    (h : findFirst fn l = some r) :
    fn r = true ∧ ∃ i : ℕ, l[i]? = some r ∧ ∀ y ∈ l.take i, fn y = false := by
  induction l with
  | nil => simp [findFirst] at h
  | cons x xs ih =>
    by_cases hx : fn x
    · rw [findFirst, if_pos hx] at h
      obtain rfl : x = r := by simpa using h
      exact ⟨hx, 0, by simp, by simp⟩
    · rw [findFirst, if_neg hx] at h
      obtain ⟨hr, i, hi, htake⟩ := ih h
      refine ⟨hr, i + 1, by simpa using hi, ?_⟩
      intro y hy
      rw [List.take_succ_cons] at hy
      rcases List.mem_cons.mp hy with rfl | hy'
      · simpa using hx
      · exact htake y hy'

/-! Lemmas about Q.map. -/

theorem mapFrom_length {α β : Type} (f : α → ℕ → β) :
    ∀ (i : ℕ) (l : List α), (mapFrom f i l).length = l.length := by
  intro i l
  induction l generalizing i with
  | nil => rfl
  | cons x xs ih => simp [mapFrom, ih]

theorem mapFrom_getElem? {α β : Type} (f : α → ℕ → β) :
    ∀ (l : List α) (i j : ℕ), (mapFrom f i l)[j]? = l[j]?.map (fun a => f a (i + j)) := by
  intro l
  induction l with
  | nil => intro i j; simp [mapFrom]
  | cons x xs ih =>
    intro i j
    cases j with
    | zero => simp [mapFrom]
    | succ j' =>
      simp only [mapFrom, List.getElem?_cons_succ, ih (i + 1) j']
      congr 1
      funext a
      congr 1
      omega

theorem map_length {α β : Type} (f : α → ℕ → β) (l : List α) :
    (Q.map f l).length = l.length :=
  mapFrom_length f 0 l

theorem map_getElem? {α β : Type} (f : α → ℕ → β) (l : List α) (j : ℕ) :
    (Q.map f l)[j]? = l[j]?.map (fun a => f a j) := by
  rw [Q.map, mapFrom_getElem?]
  simp

theorem map_ignore_index {α β : Type} (g : α → β) :
    ∀ (l : List α), Q.map (fun a _ => g a) l = l.map g := by
  have aux : ∀ (i : ℕ) (l : List α), mapFrom (fun a _ => g a) i l = l.map g := by
    intro i l
    induction l generalizing i with
    | nil => rfl
    | cons x xs ih => simp [mapFrom, ih]
  intro l
  exact aux 0 l

/-! Claim theorems. -/

/-- Claim C1 (code bug evidence): on the empty sequence, Q.min and Q.max
evaluate the key function on list[0], which is undefined, before the scan;
for a field-name key (or any key function that reads a property, such as
x => x.x) this raises a TypeError instead of returning the documented
undefined sentinel. -/
theorem min_max_empty_field_throws :
    Q.min (fieldFn "x") ([] : List JRecord) = .error .typeError ∧
    Q.max (fieldFn "x") ([] : List JRecord) = .error .typeError := by
  constructor <;> rfl

/-- Claim C5: the predicate returned by Q.mold(spec) accepts exactly the
records whose value at every key declared in spec is loosely equal to the
spec value at that key, and the empty spec accepts every record. -/
theorem mold_loose_match (spec obj : JRecord) :
    (mold spec obj = true ↔ ∀ k ∈ keys spec, looseEq (getF spec k) (getF obj k) = true) ∧
    mold [] obj = true := by
  constructor
  · simp [mold]
  · rfl

/-- Claim C5 witness: Q.mold({a:1}) accepts {a:1,b:1}. -/
theorem mold_loose_match_witness :
    mold [("a", JVal.num (.of 1))] [("a", JVal.num (.of 1)), ("b", JVal.num (.of 1))] = true :=
  (mold_loose_match [("a", JVal.num (.of 1))] [("a", JVal.num (.of 1)), ("b", JVal.num (.of 1))]).1.mpr
    (by decide)

/-- Claim C7: Q.single returns the element at the lowest index satisfying
the resolved predicate, and the undefined sentinel (`none`) exactly when no
element satisfies it. -/
theorem single_first_match (p : PredArg) (list : List JRecord) :
    (single p list = none ↔ ∀ x ∈ list, resolvePred p x = false) ∧
    (∀ r : JRecord, single p list = some r →
      resolvePred p r = true ∧
      ∃ i : ℕ, list[i]? = some r ∧ ∀ y ∈ list.take i, resolvePred p y = false) := by
  constructor
  · exact findFirst_eq_none _ _
  · intro r h
    exact findFirst_eq_some _ _ _ h

/-! Lemmas about the Q.lay loops. -/

theorem layUp_eq_range (step : ℚ) (h : 0 < step) :
    ∀ (N : ℕ) (endv i : ℚ), (⌈(endv - i) / step⌉).toNat = N →
      layUp endv i step h = (List.range N).map (fun k : ℕ => i + k * step) := by
  intro N
  induction N with
  | zero =>
    intro endv i hN
    rw [layUp]
    rw [dif_neg ?_]
    · simp
    · intro hlt
      have hpos : (0 : ℤ) < ⌈(endv - i) / step⌉ :=
        Int.ceil_pos.mpr (div_pos (by linarith) h)
      omega
  | succ N ih =>
    intro endv i hN
    have hlt : i < endv := by
      by_contra hge
      have h1 : (endv - i) / step ≤ 0 :=
        div_nonpos_of_nonpos_of_nonneg (by linarith) (le_of_lt h)
      have h2 : ⌈(endv - i) / step⌉ ≤ 0 := Int.ceil_le.mpr (by exact_mod_cast h1)
      omega
    rw [layUp, dif_pos hlt]
    have hstep : (endv - (i + step)) / step = (endv - i) / step - 1 := by
      rw [div_sub_one (ne_of_gt h)]
      congr 1
      ring
    have hN2 : (⌈(endv - (i + step)) / step⌉).toNat = N := by
      rw [hstep, Int.ceil_sub_one]
      have hpos : (0 : ℤ) < ⌈(endv - i) / step⌉ :=
        Int.ceil_pos.mpr (div_pos (by linarith) h)
      omega
    rw [ih endv (i + step) hN2]
    have hfun : ((fun k : ℕ => i + (k : ℚ) * step) ∘ Nat.succ) =
        (fun k : ℕ => (i + step) + (k : ℚ) * step) := by
      funext k
      simp only [Function.comp_apply]
      push_cast
      ring
    rw [List.range_succ_eq_map, List.map_cons, List.map_map, hfun]
    congr 1
    push_cast
    ring

theorem layUp_count (step : ℚ) (h : 0 < step) (endv i : ℚ) (k : ℕ) :
    i + k * step < endv ↔ k < (⌈(endv - i) / step⌉).toNat := by
  constructor
  · intro hk
    have hq : (k : ℚ) < (endv - i) / step := by
      rw [lt_div_iff₀ h]
      linarith
    have hz : (k : ℤ) < ⌈(endv - i) / step⌉ := Int.lt_ceil.mpr (by exact_mod_cast hq)
    omega
  · intro hk
    have hz : (k : ℤ) < ⌈(endv - i) / step⌉ := by omega
    have hq : ((k : ℤ) : ℚ) < (endv - i) / step := Int.lt_ceil.mp hz
    have hq2 : (k : ℚ) < (endv - i) / step := by exact_mod_cast hq
    rw [lt_div_iff₀ h] at hq2
    linarith

theorem layDown_eq_range (step : ℚ) (h : step < 0) :
    ∀ (N : ℕ) (endv i : ℚ), (⌈(i - endv) / (-step)⌉).toNat = N →
      layDown endv i step h = (List.range N).map (fun k : ℕ => i + k * step) := by
  have hs : (0 : ℚ) < -step := by linarith
  intro N
  induction N with
  | zero =>
    intro endv i hN
    rw [layDown]
    rw [dif_neg ?_]
    · simp
    · intro hgt
      have hpos : (0 : ℤ) < ⌈(i - endv) / (-step)⌉ :=
        Int.ceil_pos.mpr (div_pos (by linarith) hs)
      omega
  | succ N ih =>
    intro endv i hN
    have hgt : endv < i := by
      by_contra hge
      have h1 : (i - endv) / (-step) ≤ 0 :=
        div_nonpos_of_nonpos_of_nonneg (by linarith) (le_of_lt hs)
      have h2 : ⌈(i - endv) / (-step)⌉ ≤ 0 := Int.ceil_le.mpr (by exact_mod_cast h1)
      omega
    rw [layDown, dif_pos hgt]
    have hstep : ((i + step) - endv) / (-step) = (i - endv) / (-step) - 1 := by
      rw [div_sub_one (ne_of_gt hs)]
      congr 1
      ring
    have hN2 : (⌈((i + step) - endv) / (-step)⌉).toNat = N := by
      rw [hstep, Int.ceil_sub_one]
      have hpos : (0 : ℤ) < ⌈(i - endv) / (-step)⌉ :=
        Int.ceil_pos.mpr (div_pos (by linarith) hs)
      omega
    rw [ih endv (i + step) hN2]
    have hfun : ((fun k : ℕ => i + (k : ℚ) * step) ∘ Nat.succ) =
        (fun k : ℕ => (i + step) + (k : ℚ) * step) := by
      funext k
      simp only [Function.comp_apply]
      push_cast
      ring
    rw [List.range_succ_eq_map, List.map_cons, List.map_map, hfun]
    congr 1
    push_cast
    ring

theorem layDown_count (step : ℚ) (h : step < 0) (endv i : ℚ) (k : ℕ) :
    endv < i + k * step ↔ k < (⌈(i - endv) / (-step)⌉).toNat := by
  have hs : (0 : ℚ) < -step := by linarith
  constructor
  · intro hk
    have hq : (k : ℚ) < (i - endv) / (-step) := by
      rw [lt_div_iff₀ hs]
      linarith
    have hz : (k : ℤ) < ⌈(i - endv) / (-step)⌉ := Int.lt_ceil.mpr (by exact_mod_cast hq)
    omega
  · intro hk
    have hz : (k : ℤ) < ⌈(i - endv) / (-step)⌉ := by omega
    have hq : ((k : ℤ) : ℚ) < (i - endv) / (-step) := Int.lt_ceil.mp hz
    have hq2 : (k : ℚ) < (i - endv) / (-step) := by exact_mod_cast hq
    rw [lt_div_iff₀ hs] at hq2
    linarith

/-- Claim C4: Q.lay produces the arithmetic progression from the start
value (default 0) by the step (default 1), containing exactly the values
strictly below end for a positive step, exactly the values strictly above
end for a negative step, and nothing for a zero step; end itself is never
a member, since membership is equivalent to the strict inequality. -/
theorem lay_range_spec (endv : ℚ) (start? step? : Option ℚ) :
    (0 < step?.getD 1 →
      ∃ n : ℕ, lay endv start? step? =
          (List.range n).map (fun k : ℕ => start?.getD 0 + k * step?.getD 1) ∧
        ∀ k : ℕ, (start?.getD 0 + k * step?.getD 1 < endv ↔ k < n)) ∧
    (step?.getD 1 < 0 →
      ∃ n : ℕ, lay endv start? step? =
          (List.range n).map (fun k : ℕ => start?.getD 0 + k * step?.getD 1) ∧
        ∀ k : ℕ, (endv < start?.getD 0 + k * step?.getD 1 ↔ k < n)) ∧
    (step?.getD 1 = 0 → lay endv start? step? = []) := by
  refine ⟨?_, ?_, ?_⟩
  · intro hpos
    refine ⟨(⌈(endv - start?.getD 0) / step?.getD 1⌉).toNat, ?_, ?_⟩
    · simp only [lay]
      rw [dif_pos hpos]
      exact layUp_eq_range _ hpos _ _ _ rfl
    · intro k
      exact layUp_count _ hpos endv _ k
  · intro hneg
    refine ⟨(⌈(start?.getD 0 - endv) / (-step?.getD 1)⌉).toNat, ?_, ?_⟩
    · simp only [lay]
      rw [dif_neg (by linarith), dif_pos hneg]
      exact layDown_eq_range _ hneg _ _ _ rfl
    · intro k
      exact layDown_count _ hneg endv _ k
  · intro hz
    simp only [lay]
    rw [dif_neg (by rw [hz]; exact lt_irrefl 0), dif_neg (by rw [hz]; exact lt_irrefl 0)]

/-- Claim C4 witness: Q.lay(5, 0, 0) is the empty sequence, by the zero
step clause of the theorem. -/
theorem lay_range_spec_witness : lay 5 (some 0) (some 0) = [] :=
  (lay_range_spec 5 (some 0) (some 0)).2.2 rfl

/-! Lemmas about Q.mixin. -/

theorem mem_keys_cons {β : Type} (a : String × β) (l : List (String × β)) (k : String) :
    k ∈ keys (a :: l) ↔ k = a.1 ∨ k ∈ keys l := by
  simp [keys]

theorem keys_cons {β : Type} (a : String × β) (l : List (String × β)) :
    keys (a :: l) = a.1 :: keys l := rfl

theorem keys_append {β : Type} (l1 l2 : List (String × β)) :
    keys (l1 ++ l2) = keys l1 ++ keys l2 :=
  List.map_append _ _ _

theorem getF_nil (k : String) : getF [] k = JVal.undefined := rfl

theorem getF_foldl_set (src : JRecord) :
    ∀ (l : JRecord) (init : JRecord) (k : String),
      getF (l.foldl (fun acc kv => setF acc kv.1 (getF src kv.1)) init) k =
        if k ∈ keys l then getF src k else getF init k := by
  intro l
  induction l with
  | nil =>
    intro init k
    simp [keys]
  | cons kv tl ih =>
    intro init k
    rw [List.foldl_cons, ih]
    by_cases htl : k ∈ keys tl
    · rw [if_pos htl, if_pos (by rw [mem_keys_cons]; exact Or.inr htl)]
    · rw [if_neg htl]
      by_cases hk : k = kv.1
      · subst hk
        rw [getF_set_self, if_pos (by rw [mem_keys_cons]; exact Or.inl rfl)]
      · rw [getF_set_other _ _ _ _ hk,
          if_neg (by rw [mem_keys_cons]; push_neg; exact ⟨hk, htl⟩)]

theorem mem_keys_foldl_set (src : JRecord) :
    ∀ (l : JRecord) (init : JRecord) (k : String),
      k ∈ keys (l.foldl (fun acc kv => setF acc kv.1 (getF src kv.1)) init) ↔
        k ∈ keys init ∨ k ∈ keys l := by
  intro l
  induction l with
  | nil =>
    intro init k
    simp [keys]
  | cons kv tl ih =>
    intro init k
    rw [List.foldl_cons, ih]
    simp only [setF]
    rw [mem_keys_set, mem_keys_cons]
    tauto

/-- Claim C8: Q.mixin(left, right) holds exactly the keys of left and
right, each key reading the right value when right declares the key and
the left value otherwise; the inputs are untouched (every operation of the
model is a pure function building a fresh list). -/
theorem mixin_merge (left right : JRecord) (k : String) :
    getF (mixin left right) k =
      (if k ∈ keys right then getF right k
       else if k ∈ keys left then getF left k else JVal.undefined) ∧
    (k ∈ keys (mixin left right) ↔ k ∈ keys left ∨ k ∈ keys right) := by
  constructor
  · simp only [mixin]
    rw [getF_foldl_set, getF_foldl_set]
    by_cases hr : k ∈ keys right
    · rw [if_pos hr, if_pos hr]
    · rw [if_neg hr, if_neg hr]
      by_cases hl : k ∈ keys left
      · rw [if_pos hl, if_pos hl]
      · rw [if_neg hl, if_neg hl, getF_nil]
  · simp only [mixin]
    rw [mem_keys_foldl_set, mem_keys_foldl_set]
    simp only [keys, List.map_nil, List.not_mem_nil, false_or]

/-- Claim C8 witness: Q.mixin({a:1,b:1},{a:9}) reads a from the right and
b from the left. -/
theorem mixin_merge_witness :
    getF (mixin [("a", JVal.num (.of 1)), ("b", JVal.num (.of 1))] [("a", JVal.num (.of 9))]) "a" =
      (if "a" ∈ keys [("a", JVal.num (.of 9))]
       then getF [("a", JVal.num (.of 9))] "a"
       else if "a" ∈ keys [("a", JVal.num (.of 1)), ("b", JVal.num (.of 1))]
       then getF [("a", JVal.num (.of 1)), ("b", JVal.num (.of 1))] "a" else JVal.undefined) :=
  (mixin_merge [("a", JVal.num (.of 1)), ("b", JVal.num (.of 1))] [("a", JVal.num (.of 9))] "a").1

theorem getF_of_nodup : ∀ (l : JRecord), (keys l).Nodup →
    ∀ kv ∈ l, getF l kv.1 = kv.2 := by
  intro l
  induction l with
  | nil =>
    intro _ kv hmem
    simp at hmem
  | cons a tl ih =>
    intro hnd kv hmem
    rw [keys_cons] at hnd
    rcases List.mem_cons.mp hmem with rfl | htl
    · simp [getF, alistGet?_cons]
    · have hne : a.1 ≠ kv.1 := by
        intro hcontra
        exact (List.nodup_cons.mp hnd).1 (hcontra ▸ List.mem_map.mpr ⟨kv, htl, rfl⟩)
      rw [getF, alistGet?_cons, if_neg hne]
      exact ih (List.nodup_cons.mp hnd).2 kv htl

theorem foldl_set_fresh (src : JRecord) :
    ∀ (l : JRecord) (init : JRecord), (keys l).Nodup →
      (∀ k ∈ keys l, k ∉ keys init) →
      l.foldl (fun acc kv => setF acc kv.1 (getF src kv.1)) init =
        init ++ l.map (fun kv => (kv.1, getF src kv.1)) := by
  intro l
  induction l with
  | nil =>
    intro init _ _
    simp
  | cons a tl ih =>
    intro init hnd hdisj
    rw [keys_cons] at hnd hdisj
    have hfresh : a.1 ∉ keys init := hdisj a.1 (List.mem_cons_self _ _)
    have hanyf : (init.any fun kv => kv.1 == a.1) = false := by
      rw [List.any_eq_false]
      intro kv hmem hkv
      exact hfresh (List.mem_map.mpr ⟨kv, hmem, by simpa using hkv⟩)
    have hset : setF init a.1 (getF src a.1) = init ++ [(a.1, getF src a.1)] := by
      simp only [setF, alistSet, hanyf, Bool.false_eq_true, if_false]
    rw [List.foldl_cons, hset, ih (init ++ [(a.1, getF src a.1)])
      (List.nodup_cons.mp hnd).2 ?_]
    · simp
    · intro k hk
      rw [keys_append]
      rw [List.mem_append]
      push_neg
      constructor
      · exact fun hcontra => hdisj k (List.mem_cons_of_mem _ hk) hcontra
      · intro hcontra
        have hka : k = a.1 := by simpa [keys] using hcontra
        exact (List.nodup_cons.mp hnd).1 (hka ▸ hk)

theorem mixin_nil (l : JRecord) (hnd : (keys l).Nodup) : mixin l [] = l := by
  simp only [mixin, List.foldl_nil]
  rw [foldl_set_fresh l l [] hnd (by simp [keys])]
  simp only [List.nil_append]
  have hpt : ∀ kv ∈ l, (kv.1, getF l kv.1) = kv := by
    intro kv hmem
    rw [getF_of_nodup l hnd kv hmem]
  calc l.map (fun kv => (kv.1, getF l kv.1)) = l.map id := List.map_congr_left hpt
    _ = l := List.map_id l

/-- Claim C2: Q.amend is a left-outer join: the output has the length of
the left list, and position i holds the mixin of the left element with the
first right element whose rKey field (rKey defaulting to lKey) loosely
equals the left lKey field, or the left element itself, entry for entry,
when no right element matches. -/
theorem amend_left_outer_join (left right : List JRecord) (lKey : String)
    (rKey? : Option String) (hnd : ∀ l ∈ left, (keys l).Nodup) :
    (amend left right lKey rKey?).length = left.length ∧
    ∀ (i : ℕ) (l : JRecord), left[i]? = some l →
      (∃ (j : ℕ) (r : JRecord), right[j]? = some r ∧
          looseEq (getF l lKey) (getF r (amendRKey lKey rKey?)) = true ∧
          (∀ r2 ∈ right.take j, looseEq (getF l lKey) (getF r2 (amendRKey lKey rKey?)) = false) ∧
          (amend left right lKey rKey?)[i]? = some (mixin l r)) ∨
      ((∀ r2 ∈ right, looseEq (getF l lKey) (getF r2 (amendRKey lKey rKey?)) = false) ∧
        (amend left right lKey rKey?)[i]? = some l) := by
  constructor
  · exact map_length _ _
  · intro i l hil
    have hout : (amend left right lKey rKey?)[i]? =
        some (mixin l ((single
          (.fn (fun r => looseEq (getF l lKey) (getF r (amendRKey lKey rKey?))))
          right).getD [])) := by
      simp only [amend]
      rw [map_getElem?, hil]
      rfl
    cases hfind : single
        (.fn (fun r => looseEq (getF l lKey) (getF r (amendRKey lKey rKey?)))) right with
    | some r =>
      obtain ⟨hr, j, hj, htake⟩ := findFirst_eq_some _ _ _ hfind
      exact Or.inl ⟨j, r, hj, hr, htake, by rw [hout, hfind]; rfl⟩
    | none =>
      have hall := (findFirst_eq_none
        (fun r => looseEq (getF l lKey) (getF r (amendRKey lKey rKey?))) right).mp hfind
      refine Or.inr ⟨hall, ?_⟩
      rw [hout, hfind]
      have hlmem : l ∈ left := List.getElem?_mem hil
      rw [Option.getD_none, mixin_nil l (hnd l hlmem)]

/-- Claim C2 witness: the spec example amend([{id:1,b:2},{id:2,b:2}],
[{id:1,d:4}], "id") keeps the length of the left list. -/
theorem amend_left_outer_join_witness :
    (amend [[("id", JVal.num (.of 1)), ("b", JVal.num (.of 2))],
            [("id", JVal.num (.of 2)), ("b", JVal.num (.of 2))]]
           [[("id", JVal.num (.of 1)), ("d", JVal.num (.of 4))]] "id" none).length = 2 := by
  have h := (amend_left_outer_join
    [[("id", JVal.num (.of 1)), ("b", JVal.num (.of 2))],
     [("id", JVal.num (.of 2)), ("b", JVal.num (.of 2))]]
    [[("id", JVal.num (.of 1)), ("d", JVal.num (.of 4))]] "id" none (by decide)).1
  simpa using h

/-! Lemmas about Q.group. -/

theorem jsConcat_of_not_arr (l : List JItem) (x : JItem) (hx : x.isArr = false) :
    jsConcat l x = l ++ [x] := by
  cases x with
  | arr elts => simp [JItem.isArr] at hx
  | val v => rfl
  | obj r => rfl

theorem group_foldl_get (fn : JItem → JVal) (k : String) :
    ∀ (list : List JItem), (∀ e ∈ list, e.isArr = false) →
      ∀ (acc : List (String × List JItem)),
      alistGet? (list.foldl (fun acc elt =>
          let key := jsToString (fn elt)
          match alistGet? acc key with
          | some prev => alistSet acc key (jsConcat prev elt)
          | none => alistSet acc key [elt]) acc) k =
        (if (list.filter (fun e => jsToString (fn e) == k)).isEmpty then alistGet? acc k
         else some ((alistGet? acc k).getD [] ++
           list.filter (fun e => jsToString (fn e) == k))) := by
  intro list
  induction list with
  | nil =>
    intro _ acc
    simp
  | cons e rest ih =>
    intro hna acc
    have hena : e.isArr = false := hna e (List.mem_cons_self _ _)
    have hrestna : ∀ x ∈ rest, JItem.isArr x = false :=
      fun x hx => hna x (List.mem_cons_of_mem _ hx)
    rw [List.foldl_cons, ih hrestna]
    by_cases hk : jsToString (fn e) = k
    · have hb : (jsToString (fn e) == k) = true := by simpa using hk
      rw [List.filter_cons]
      simp only [hb, if_true]
      have hstep : alistGet? ((fun acc elt =>
          let key := jsToString (fn elt)
          match alistGet? acc key with
          | some prev => alistSet acc key (jsConcat prev elt)
          | none => alistSet acc key [elt]) acc e) k =
          some ((alistGet? acc k).getD [] ++ [e]) := by
        simp only
        rw [hk]
        cases hprev : alistGet? acc k with
        | some prev =>
          simp only [hprev, Option.getD_some]
          rw [jsConcat_of_not_arr prev e hena]
          exact alistGet?_set_self acc k (prev ++ [e])
        | none =>
          simp only [hprev, Option.getD_none, List.nil_append]
          exact alistGet?_set_self acc k [e]
      rw [hstep]
      cases hrest : rest.filter (fun e2 => jsToString (fn e2) == k) with
      | nil => simp
      | cons b bs => simp
    · have hb : (jsToString (fn e) == k) = false := by simpa using hk
      rw [List.filter_cons]
      simp only [hb, Bool.false_eq_true, if_false]
      have hne : k ≠ jsToString (fn e) := fun hc => hk hc.symm
      have hstep : alistGet? ((fun acc elt =>
          let key := jsToString (fn elt)
          match alistGet? acc key with
          | some prev => alistSet acc key (jsConcat prev elt)
          | none => alistSet acc key [elt]) acc e) k = alistGet? acc k := by
        simp only
        cases hprev : alistGet? acc (jsToString (fn e)) with
        | some prev =>
          simp only [hprev]
          exact alistGet?_set_other acc (jsToString (fn e)) k (jsConcat prev e) hne
        | none =>
          simp only [hprev]
          exact alistGet?_set_other acc (jsToString (fn e)) k [e] hne
      rw [hstep]

/-- Claim C6 counterexample: the claim fails as stated because
acc[key].concat(elt) spreads an array-valued element.  Grouping the two
single-element arrays [1] and [2] under a constant key does not produce the
bucket of exactly those two input elements: the second is spread, so the
bucket is [[1], 2], not [[1], [2]]. -/
theorem group_buckets_counterexample :
    ¬ (alistGet? (group (fun _ => JVal.num (.of 1))
          [JItem.arr [JItem.val (JVal.num (.of 1))],
           JItem.arr [JItem.val (JVal.num (.of 2))]]) "1" =
        some ([JItem.arr [JItem.val (JVal.num (.of 1))],
               JItem.arr [JItem.val (JVal.num (.of 2))]].filter
          (fun e => jsToString ((fun _ : JItem => JVal.num (.of 1)) e) == "1"))) := by
  intro h
  have hL : alistGet? (group (fun _ => JVal.num (.of 1))
      [JItem.arr [JItem.val (JVal.num (.of 1))],
       JItem.arr [JItem.val (JVal.num (.of 2))]]) "1" =
      some [JItem.arr [JItem.val (JVal.num (.of 1))], JItem.val (JVal.num (.of 2))] := rfl
  have hR : ([JItem.arr [JItem.val (JVal.num (.of 1))],
              JItem.arr [JItem.val (JVal.num (.of 2))]].filter
        (fun e => jsToString ((fun _ : JItem => JVal.num (.of 1)) e) == "1")) =
      [JItem.arr [JItem.val (JVal.num (.of 1))],
       JItem.arr [JItem.val (JVal.num (.of 2))]] := rfl
  rw [hL, hR] at h
  simp at h

/-- Claim C6 (amended): for a sequence none of whose elements is an array,
Q.group maps every stringified key to exactly the bucket of input elements
whose extracted key stringifies to it, in their original relative order,
and keys with no elements are absent; an array-valued element is instead
spread into the bucket by concat. -/
theorem group_buckets (fn : JItem → JVal) (list : List JItem)
    (hna : ∀ e ∈ list, e.isArr = false) (k : String) :
    alistGet? (group fn list) k =
      (if (list.filter (fun e => jsToString (fn e) == k)).isEmpty then none
       else some (list.filter (fun e => jsToString (fn e) == k))) := by
  simp only [group, reduce]
  rw [group_foldl_get fn k list hna []]
  cases hfil : list.filter (fun e => jsToString (fn e) == k) with
  | nil => simp [alistGet?]
  | cons b bs => simp [alistGet?]

/-- Claim C6 witness: Math.floor bucketing of [4.2, 6.1, 6.4] puts 6.1 and
6.4 in the bucket of key 6; the non-array hypothesis holds since the
elements are numbers. -/
theorem group_buckets_witness :
    alistGet? (group
        (fun e => match e with
          | JItem.val (JVal.num (.of q)) => JVal.num (.of ⌊q⌋)
          | _ => JVal.undefined)
        [JItem.val (JVal.num (.of ((42 : ℚ) / 10))),
         JItem.val (JVal.num (.of ((61 : ℚ) / 10))),
         JItem.val (JVal.num (.of ((64 : ℚ) / 10)))]) "6" =
      (if (([JItem.val (JVal.num (.of ((42 : ℚ) / 10))),
             JItem.val (JVal.num (.of ((61 : ℚ) / 10))),
             JItem.val (JVal.num (.of ((64 : ℚ) / 10)))].filter
            (fun e => jsToString ((fun e => match e with
              | JItem.val (JVal.num (.of q)) => JVal.num (.of ⌊q⌋)
              | _ => JVal.undefined) e) == "6")).isEmpty) then none
       else some ([JItem.val (JVal.num (.of ((42 : ℚ) / 10))),
             JItem.val (JVal.num (.of ((61 : ℚ) / 10))),
             JItem.val (JVal.num (.of ((64 : ℚ) / 10)))].filter
            (fun e => jsToString ((fun e => match e with
              | JItem.val (JVal.num (.of q)) => JVal.num (.of ⌊q⌋)
              | _ => JVal.undefined) e) == "6"))) :=
  group_buckets
    (fun e => match e with
      | JItem.val (JVal.num (.of q)) => JVal.num (.of ⌊q⌋)
      | _ => JVal.undefined)
    [JItem.val (JVal.num (.of ((42 : ℚ) / 10))),
     JItem.val (JVal.num (.of ((61 : ℚ) / 10))),
     JItem.val (JVal.num (.of ((64 : ℚ) / 10)))]
    (by intro e he; fin_cases he <;> rfl) "6"

/-! Lemmas about the Q.min and Q.max scanning loops. -/

theorem minGo_done {α : Type} (fn : Option α → Except JErr JVal) (list : List α)
    (i : ℕ) (item : Option α) (res : JVal) (h : ¬ i < list.length) :
    minGo fn list i item res = .ok item := by
  rw [minGo, dif_neg h]

theorem minGo_step {α : Type} (fn : Option α → Except JErr JVal) (list : List α)
    (i : ℕ) (item : Option α) (res : JVal) (h : i < list.length) (v : JVal)
    (hv : fn (some (list.get ⟨i, h⟩)) = .ok v) :
    minGo fn list i item res =
      if jsLt v res then minGo fn list (i + 1) (some (list.get ⟨i, h⟩)) v
      else minGo fn list (i + 1) item res := by
  rw [minGo, dif_pos h]
  simp only [hv]

theorem maxGo_done {α : Type} (fn : Option α → Except JErr JVal) (list : List α)
    (i : ℕ) (item : Option α) (res : JVal) (h : ¬ i < list.length) :
    maxGo fn list i item res = .ok item := by
  rw [maxGo, dif_neg h]

theorem maxGo_step {α : Type} (fn : Option α → Except JErr JVal) (list : List α)
    (i : ℕ) (item : Option α) (res : JVal) (h : i < list.length) (v : JVal)
    (hv : fn (some (list.get ⟨i, h⟩)) = .ok v) :
    maxGo fn list i item res =
      if jsLt res v then maxGo fn list (i + 1) (some (list.get ⟨i, h⟩)) v
      else maxGo fn list (i + 1) item res := by
  rw [maxGo, dif_pos h]
  simp only [hv]

theorem minGo_mem {α : Type} (fn : Option α → Except JErr JVal) (list : List α)
    (htot : ∀ x ∈ list, ∃ v, fn (some x) = .ok v) :
    ∀ (n i : ℕ), list.length - i = n → ∀ (item : Option α) (res : JVal),
      (∃ y ∈ list, item = some y) →
      ∃ y ∈ list, minGo fn list i item res = .ok (some y) := by
  intro n
  induction n with
  | zero =>
    intro i hi item res hitem
    obtain ⟨y, hy, rfl⟩ := hitem
    exact ⟨y, hy, minGo_done fn list i (some y) res (by omega)⟩
  | succ n ih =>
    intro i hi item res hitem
    have hlt : i < list.length := by omega
    obtain ⟨v, hv⟩ := htot (list.get ⟨i, hlt⟩) (list.get_mem i hlt)
    rw [minGo_step fn list i item res hlt v hv]
    cases hcmp : jsLt v res with
    | true =>
      rw [if_pos rfl]
      exact ih (i + 1) (by omega) _ _ ⟨list.get ⟨i, hlt⟩, list.get_mem i hlt, rfl⟩
    | false =>
      rw [if_neg (by simp)]
      exact ih (i + 1) (by omega) _ _ hitem

theorem maxGo_mem {α : Type} (fn : Option α → Except JErr JVal) (list : List α)
    (htot : ∀ x ∈ list, ∃ v, fn (some x) = .ok v) :
    ∀ (n i : ℕ), list.length - i = n → ∀ (item : Option α) (res : JVal),
      (∃ y ∈ list, item = some y) →
      ∃ y ∈ list, maxGo fn list i item res = .ok (some y) := by
  intro n
  induction n with
  | zero =>
    intro i hi item res hitem
    obtain ⟨y, hy, rfl⟩ := hitem
    exact ⟨y, hy, maxGo_done fn list i (some y) res (by omega)⟩
  | succ n ih =>
    intro i hi item res hitem
    have hlt : i < list.length := by omega
    obtain ⟨v, hv⟩ := htot (list.get ⟨i, hlt⟩) (list.get_mem i hlt)
    rw [maxGo_step fn list i item res hlt v hv]
    cases hcmp : jsLt res v with
    | true =>
      rw [if_pos rfl]
      exact ih (i + 1) (by omega) _ _ ⟨list.get ⟨i, hlt⟩, list.get_mem i hlt, rfl⟩
    | false =>
      rw [if_neg (by simp)]
      exact ih (i + 1) (by omega) _ _ hitem

theorem min_mem_aux {α : Type} (fn : Option α → Except JErr JVal) (a : α) (as : List α)
    (htot : ∀ x ∈ a :: as, ∃ v, fn (some x) = .ok v) :
    ∃ y ∈ a :: as, Q.min fn (a :: as) = .ok (some y) := by
  obtain ⟨v0, hv0⟩ := htot a (List.mem_cons_self a as)
  have h0 : (a :: as)[0]? = some a := List.getElem?_cons_zero
  obtain ⟨y, hy, hgo⟩ := minGo_mem fn (a :: as) htot ((a :: as).length - 0) 0 rfl
    (some a) v0 ⟨a, List.mem_cons_self a as, rfl⟩
  refine ⟨y, hy, ?_⟩
  simp only [Q.min, h0, hv0]
  exact hgo

theorem max_mem_aux {α : Type} (fn : Option α → Except JErr JVal) (a : α) (as : List α)
    (htot : ∀ x ∈ a :: as, ∃ v, fn (some x) = .ok v) :
    ∃ y ∈ a :: as, Q.max fn (a :: as) = .ok (some y) := by
  obtain ⟨v0, hv0⟩ := htot a (List.mem_cons_self a as)
  have h0 : (a :: as)[0]? = some a := List.getElem?_cons_zero
  obtain ⟨y, hy, hgo⟩ := maxGo_mem fn (a :: as) htot ((a :: as).length - 0) 0 rfl
    (some a) v0 ⟨a, List.mem_cons_self a as, rfl⟩
  refine ⟨y, hy, ?_⟩
  simp only [Q.max, h0, hv0]
  exact hgo

theorem min_singleton {α : Type} (fn : Option α → Except JErr JVal) (a : α) (v : JVal)
    (hv : fn (some a) = .ok v) : Q.min fn [a] = .ok (some a) := by
  have h0 : ([a] : List α)[0]? = some a := List.getElem?_cons_zero
  simp only [Q.min, h0, hv]
  rw [minGo_step fn [a] 0 (some a) v (by simp) v hv]
  rw [if_neg (by simp [jsLt_irrefl])]
  exact minGo_done fn [a] 1 (some a) v (by simp)

theorem max_singleton {α : Type} (fn : Option α → Except JErr JVal) (a : α) (v : JVal)
    (hv : fn (some a) = .ok v) : Q.max fn [a] = .ok (some a) := by
  have h0 : ([a] : List α)[0]? = some a := List.getElem?_cons_zero
  simp only [Q.max, h0, hv]
  rw [maxGo_step fn [a] 0 (some a) v (by simp) v hv]
  rw [if_neg (by simp [jsLt_irrefl])]
  exact maxGo_done fn [a] 1 (some a) v (by simp)

/-- Claim C10: on a non-empty sequence with a key function that succeeds on
every element, Q.min and Q.max return an element of the sequence; on a
single-element sequence they return that element whatever the key value is,
NaN included, because no comparison against the seed key can succeed. -/
theorem min_max_mem_nonempty {α : Type} (fn : Option α → Except JErr JVal)
    (list : List α) (hne : list ≠ [])
    (htot : ∀ x ∈ list, ∃ v, fn (some x) = .ok v) :
    (∃ y ∈ list, Q.min fn list = .ok (some y)) ∧
    (∃ y ∈ list, Q.max fn list = .ok (some y)) ∧
    (∀ (a : α) (v : JVal), fn (some a) = .ok v →
      Q.min fn [a] = .ok (some a) ∧ Q.max fn [a] = .ok (some a)) := by
  obtain ⟨a, as, rfl⟩ := List.exists_cons_of_ne_nil hne
  exact ⟨min_mem_aux fn a as htot, max_mem_aux fn a as htot,
    fun a2 v hv => ⟨min_singleton fn a2 v hv, max_singleton fn a2 v hv⟩⟩

/-- Claim C10 witness: on the single record whose x field is NaN, Q.min and
Q.max both return that record. -/
theorem min_max_mem_nonempty_witness :
    Q.min (fieldFn "x") [[("x", JVal.num .nan)]] = .ok (some [("x", JVal.num .nan)]) ∧
    Q.max (fieldFn "x") [[("x", JVal.num .nan)]] = .ok (some [("x", JVal.num .nan)]) :=
  (min_max_mem_nonempty (fieldFn "x") [[("x", JVal.num .nan)]]
    (by simp)
    (fun x _ => ⟨getF x "x", rfl⟩)).2.2 [("x", JVal.num .nan)] (JVal.num .nan) rfl

/-! Lemmas about the host sort model and Q.sort. -/

theorem insertCmp_perm {β : Type} (c : β → β → Int) (x : β) :
    ∀ (l : List β), (insertCmp c x l).Perm (x :: l) := by
  intro l
  induction l with
  | nil => exact List.Perm.refl [x]
  | cons y ys ih =>
    rw [insertCmp]
    by_cases h : c y x < 0
    · rw [if_pos h]
      exact (ih.cons y).trans (List.Perm.swap x y ys)
    · rw [if_neg h]

theorem mem_insertCmp {β : Type} (c : β → β → Int) (x : β) (l : List β) (z : β) :
    z ∈ insertCmp c x l ↔ z = x ∨ z ∈ l := by
  rw [(insertCmp_perm c x l).mem_iff, List.mem_cons]

theorem hostSort_perm {β : Type} (c : β → β → Int) :
    ∀ (l : List β), (hostSort c l).Perm l := by
  intro l
  induction l with
  | nil => exact List.Perm.refl []
  | cons x xs ih =>
    rw [hostSort]
    exact (insertCmp_perm c x (hostSort c xs)).trans (ih.cons x)

theorem compareKeys_neg_iff (a b : JVal × JRecord) :
    compareKeys a b < 0 ↔ jsLt a.1 b.1 = true := by
  unfold compareKeys
  constructor
  · intro h
    by_contra hc
    rw [if_neg hc] at h
    by_cases h2 : jsLt b.1 a.1 = true
    · rw [if_pos h2] at h
      omega
    · rw [if_neg h2] at h
      omega
  · intro h
    rw [if_pos h]
    omega

theorem pairwise_insertCmp (x : JVal × JRecord) :
    ∀ (m : List (JVal × JRecord)),
      (∀ a ∈ x :: m, ∀ b ∈ x :: m, ∀ d ∈ x :: m,
        jsLt b.1 a.1 = false → jsLt d.1 b.1 = false → jsLt d.1 a.1 = false) →
      m.Pairwise (fun a b => jsLt b.1 a.1 = false) →
      (insertCmp compareKeys x m).Pairwise (fun a b => jsLt b.1 a.1 = false) := by
  intro m
  induction m with
  | nil =>
    intro _ _
    rw [insertCmp]
    exact List.pairwise_singleton _ _
  | cons y ys ih =>
    intro htr hpw
    rw [insertCmp]
    by_cases h : compareKeys y x < 0
    · rw [if_pos h]
      have hyx : jsLt y.1 x.1 = true := (compareKeys_neg_iff y x).mp h
      rw [List.pairwise_cons]
      constructor
      · intro z hz
        rcases (mem_insertCmp compareKeys x ys z).mp hz with rfl | hzys
        · exact jsLt_asymm _ _ hyx
        · exact (List.pairwise_cons.mp hpw).1 z hzys
      · have lift : ∀ a, a ∈ x :: ys → a ∈ x :: y :: ys := by
          intro a ha
          rcases List.mem_cons.mp ha with rfl | ha2
          · exact List.mem_cons_self _ _
          · exact List.mem_cons_of_mem _ (List.mem_cons_of_mem _ ha2)
        exact ih (fun a ha b hb d hd => htr a (lift a ha) b (lift b hb) d (lift d hd))
          (List.pairwise_cons.mp hpw).2
    · rw [if_neg h]
      have hyx : jsLt y.1 x.1 = false := by
        cases hb : jsLt y.1 x.1 with
        | false => rfl
        | true => exact absurd ((compareKeys_neg_iff y x).mpr hb) h
      rw [List.pairwise_cons]
      constructor
      · intro z hz
        rcases List.mem_cons.mp hz with rfl | hzys
        · exact hyx
        · have hyz : jsLt z.1 y.1 = false := (List.pairwise_cons.mp hpw).1 z hzys
          exact htr x (List.mem_cons_self _ _)
            y (List.mem_cons_of_mem _ (List.mem_cons_self _ _))
            z (List.mem_cons_of_mem _ (List.mem_cons_of_mem _ hzys)) hyx hyz
      · exact hpw

theorem pairwise_hostSort :
    ∀ (l : List (JVal × JRecord)),
      (∀ a ∈ l, ∀ b ∈ l, ∀ d ∈ l,
        jsLt b.1 a.1 = false → jsLt d.1 b.1 = false → jsLt d.1 a.1 = false) →
      (hostSort compareKeys l).Pairwise (fun a b => jsLt b.1 a.1 = false) := by
  intro l
  induction l with
  | nil =>
    intro _
    exact List.Pairwise.nil
  | cons x xs ih =>
    intro htr
    rw [hostSort]
    have hmem : ∀ a, a ∈ x :: hostSort compareKeys xs → a ∈ x :: xs := by
      intro a ha
      rcases List.mem_cons.mp ha with rfl | ha2
      · exact List.mem_cons_self _ _
      · exact List.mem_cons_of_mem _ ((hostSort_perm compareKeys xs).mem_iff.mp ha2)
    exact pairwise_insertCmp x (hostSort compareKeys xs)
      (fun a ha b hb d hd => htr a (hmem a ha) b (hmem b hb) d (hmem d hd))
      (ih (fun a ha b hb d hd => htr a (List.mem_cons_of_mem _ ha)
        b (List.mem_cons_of_mem _ hb) d (List.mem_cons_of_mem _ hd)))

theorem filter_insertCmp {β : Type} (c : β → β → Int) (p : β → Bool) (x : β) :
    ∀ (l : List β), (∀ y ∈ l, p x = true → p y = true → ¬ c y x < 0) →
      (insertCmp c x l).filter p = if p x then x :: l.filter p else l.filter p := by
  intro l
  induction l with
  | nil =>
    intro _
    rw [insertCmp]
    cases hpx : p x with
    | true => simp [List.filter_cons, hpx]
    | false => simp [List.filter_cons, hpx]
  | cons y ys ih =>
    intro hcond
    rw [insertCmp]
    by_cases h : c y x < 0
    · rw [if_pos h]
      rw [List.filter_cons,
        ih (fun z hz => hcond z (List.mem_cons_of_mem _ hz))]
      cases hpx : p x with
      | true =>
        have hpy : p y = false := by
          cases hpy : p y with
          | false => rfl
          | true => exact absurd h (hcond y (List.mem_cons_self _ _) hpx hpy)
        simp [List.filter_cons, hpx, hpy]
      | false =>
        simp [List.filter_cons, hpx]
    · rw [if_neg h]
      cases hpx : p x with
      | true => simp [List.filter_cons, hpx]
      | false => simp [List.filter_cons, hpx]

theorem filter_hostSort {β : Type} (c : β → β → Int) (p : β → Bool) :
    ∀ (l : List β), (∀ x ∈ l, ∀ y ∈ l, p x = true → p y = true → ¬ c y x < 0) →
      (hostSort c l).filter p = l.filter p := by
  intro l
  induction l with
  | nil =>
    intro _
    rfl
  | cons x xs ih =>
    intro hcond
    have hsub : ∀ y ∈ hostSort c xs, p x = true → p y = true → ¬ c y x < 0 := by
      intro y hy hpx hpy
      have hymem : y ∈ xs := (hostSort_perm c xs).mem_iff.mp hy
      exact hcond x (List.mem_cons_self _ _) y (List.mem_cons_of_mem _ hymem) hpx hpy
    rw [hostSort, filter_insertCmp c p x (hostSort c xs) hsub,
      ih (fun a ha b hb => hcond a (List.mem_cons_of_mem _ ha) b (List.mem_cons_of_mem _ hb))]
    cases hpx : p x with
    | true => rw [List.filter_cons]; simp [hpx]
    | false => rw [List.filter_cons]; simp [hpx]

theorem keyValue_eq_map (fn : JRecord → JVal) (list : List JRecord) :
    keyValue fn list = list.map (fun d => (fn d, d)) :=
  map_ignore_index _ list

theorem pluckVal_eq_map (list : List (JVal × JRecord)) :
    pluckVal list = list.map Prod.snd :=
  map_ignore_index _ list

theorem mem_keyValue (fn : JRecord → JVal) (list : List JRecord) (x : JVal × JRecord)
    (hx : x ∈ keyValue fn list) : x.1 = fn x.2 ∧ x.2 ∈ list := by
  rw [keyValue_eq_map] at hx
  obtain ⟨d, hd, rfl⟩ := List.mem_map.mp hx
  exact ⟨rfl, hd⟩

theorem sort_perm (f : SortKey) (list : List JRecord) : (Q.sort f list).Perm list := by
  rw [Q.sort, pluckVal_eq_map]
  have h1 : ((hostSort compareKeys (keyValue (resolveSortKey f) list)).map Prod.snd).Perm
      ((keyValue (resolveSortKey f) list).map Prod.snd) :=
    (hostSort_perm _ _).map _
  have h2 : (keyValue (resolveSortKey f) list).map Prod.snd = list := by
    rw [keyValue_eq_map, List.map_map]
    have hsnd2 : (Prod.snd ∘ fun d : JRecord => (resolveSortKey f d, d)) = id := rfl
    rw [hsnd2, List.map_id]
  rw [h2] at h1
  exact h1

theorem sort_pairwise (f : SortKey) (list : List JRecord)
    (htr : ∀ x ∈ list, ∀ y ∈ list, ∀ z ∈ list,
      jsLt (resolveSortKey f y) (resolveSortKey f x) = false →
      jsLt (resolveSortKey f z) (resolveSortKey f y) = false →
      jsLt (resolveSortKey f z) (resolveSortKey f x) = false) :
    (Q.sort f list).Pairwise
      (fun a b => jsLt (resolveSortKey f b) (resolveSortKey f a) = false) := by
  have htrdec : ∀ a ∈ keyValue (resolveSortKey f) list, ∀ b ∈ keyValue (resolveSortKey f) list,
      ∀ d ∈ keyValue (resolveSortKey f) list,
      jsLt b.1 a.1 = false → jsLt d.1 b.1 = false → jsLt d.1 a.1 = false := by
    intro a ha b hb d hd hab hbd
    obtain ⟨ha1, ha2⟩ := mem_keyValue _ _ a ha
    obtain ⟨hb1, hb2⟩ := mem_keyValue _ _ b hb
    obtain ⟨hd1, hd2⟩ := mem_keyValue _ _ d hd
    rw [ha1, hb1] at hab
    rw [hb1, hd1] at hbd
    rw [ha1, hd1]
    exact htr a.2 ha2 b.2 hb2 d.2 hd2 hab hbd
  have hpw := pairwise_hostSort (keyValue (resolveSortKey f) list) htrdec
  rw [Q.sort, pluckVal_eq_map, List.pairwise_map]
  refine hpw.imp_of_mem ?_
  intro a b ha hb hab
  have ha1 := (mem_keyValue _ _ a ((hostSort_perm _ _).mem_iff.mp ha)).1
  have hb1 := (mem_keyValue _ _ b ((hostSort_perm _ _).mem_iff.mp hb)).1
  rw [← ha1, ← hb1]
  exact hab

theorem sort_filter_key (f : SortKey) (list : List JRecord) (k : JVal) :
    (Q.sort f list).filter (fun d => decide (resolveSortKey f d = k)) =
      list.filter (fun d => decide (resolveSortKey f d = k)) := by
  rw [Q.sort, pluckVal_eq_map, List.filter_map]
  have hcongr : (hostSort compareKeys (keyValue (resolveSortKey f) list)).filter
      ((fun d => decide (resolveSortKey f d = k)) ∘ Prod.snd) =
      (hostSort compareKeys (keyValue (resolveSortKey f) list)).filter
        (fun x => decide (x.1 = k)) := by
    apply List.filter_congr
    intro x hx
    have hx1 := (mem_keyValue _ _ x ((hostSort_perm _ _).mem_iff.mp hx)).1
    simp only [Function.comp_apply]
    rw [hx1]
  rw [hcongr]
  have hstable : (hostSort compareKeys (keyValue (resolveSortKey f) list)).filter
      (fun x => decide (x.1 = k)) =
      (keyValue (resolveSortKey f) list).filter (fun x => decide (x.1 = k)) := by
    apply filter_hostSort
    intro x _ y _ hqx hqy
    have hx1 : x.1 = k := of_decide_eq_true hqx
    have hy1 : y.1 = k := of_decide_eq_true hqy
    rw [compareKeys_neg_iff, hy1, hx1, jsLt_irrefl]
    simp
  rw [hstable, keyValue_eq_map, List.filter_map, List.map_map]
  have hpred : ((fun x : JVal × JRecord => decide (x.1 = k)) ∘ fun d => (resolveSortKey f d, d)) =
      (fun d => decide (resolveSortKey f d = k)) := rfl
  rw [hpred]
  have hsnd : (Prod.snd ∘ fun d : JRecord => (resolveSortKey f d, d)) = id := rfl
  rw [hsnd, List.map_id]

/-- Claim C3: Q.sort is a permutation of the input, arranged ascending by
extracted key under the JS relational comparison (assuming the keys are
mutually comparable, i.e. the induced order is transitive on the list, which
holds for any homogeneous non-NaN key set), and stable: the subsequence of
elements sharing any fixed extracted key is preserved exactly. -/
theorem sort_stable_sorted (f : SortKey) (list : List JRecord) (k : JVal)
    (htr : ∀ x ∈ list, ∀ y ∈ list, ∀ z ∈ list,
      jsLt (resolveSortKey f y) (resolveSortKey f x) = false →
      jsLt (resolveSortKey f z) (resolveSortKey f y) = false →
      jsLt (resolveSortKey f z) (resolveSortKey f x) = false) :
    (Q.sort f list).Perm list ∧
    (Q.sort f list).Pairwise
      (fun a b => jsLt (resolveSortKey f b) (resolveSortKey f a) = false) ∧
    (Q.sort f list).filter (fun d => decide (resolveSortKey f d = k)) =
      list.filter (fun d => decide (resolveSortKey f d = k)) :=
  ⟨sort_perm f list, sort_pairwise f list htr, sort_filter_key f list k⟩

/-- Claim C3 witness: sorting [{age:1},{age:3},{age:2}] by the age field is
a stable ascending arrangement of the input. -/
theorem sort_stable_sorted_witness :
    (Q.sort (.name "age")
        [[("age", JVal.num (.of 1))], [("age", JVal.num (.of 3))], [("age", JVal.num (.of 2))]]).Perm
      [[("age", JVal.num (.of 1))], [("age", JVal.num (.of 3))], [("age", JVal.num (.of 2))]] ∧
    (Q.sort (.name "age")
        [[("age", JVal.num (.of 1))], [("age", JVal.num (.of 3))], [("age", JVal.num (.of 2))]]).Pairwise
      (fun a b => jsLt (resolveSortKey (.name "age") b) (resolveSortKey (.name "age") a) = false) ∧
    (Q.sort (.name "age")
        [[("age", JVal.num (.of 1))], [("age", JVal.num (.of 3))], [("age", JVal.num (.of 2))]]).filter
      (fun d => decide (resolveSortKey (.name "age") d = JVal.num (.of 3))) =
      ([[("age", JVal.num (.of 1))], [("age", JVal.num (.of 3))], [("age", JVal.num (.of 2))]] : List JRecord).filter
      (fun d => decide (resolveSortKey (.name "age") d = JVal.num (.of 3))) :=
  sort_stable_sorted (.name "age")
    [[("age", JVal.num (.of 1))], [("age", JVal.num (.of 3))], [("age", JVal.num (.of 2))]]
    (JVal.num (.of 3)) (by decide)

theorem resolveSortKey_desc (m : String) (d : JRecord) :
    resolveSortKey (.name (String.mk ('-' :: m.data))) d = jsNeg (getF d m) := rfl

theorem jsNeg_num (q : ℚ) : jsNeg (.num (.of q)) = .num (.of (-q)) := rfl

theorem jsLt_num (a b : ℚ) : jsLt (.num (.of a)) (.num (.of b)) = decide (a < b) := rfl

/-- Claim C9: with a field name carrying the descending marker, Q.sort
orders by the negated numeric field value, so on records whose field is
numeric the output is a permutation of the input in descending order of
that field. -/
theorem sort_desc_numeric (m : String) (list : List JRecord)
    (hnum : ∀ d ∈ list, ∃ q : ℚ, getF d m = .num (.of q)) :
    (Q.sort (.name (String.mk ('-' :: m.data))) list).Perm list ∧
    (Q.sort (.name (String.mk ('-' :: m.data))) list).Pairwise
      (fun d e => jsLt (getF d m) (getF e m) = false) := by
  have hperm := sort_perm (.name (String.mk ('-' :: m.data))) list
  refine ⟨hperm, ?_⟩
  have htr : ∀ x ∈ list, ∀ y ∈ list, ∀ z ∈ list,
      jsLt (resolveSortKey (.name (String.mk ('-' :: m.data))) y)
        (resolveSortKey (.name (String.mk ('-' :: m.data))) x) = false →
      jsLt (resolveSortKey (.name (String.mk ('-' :: m.data))) z)
        (resolveSortKey (.name (String.mk ('-' :: m.data))) y) = false →
      jsLt (resolveSortKey (.name (String.mk ('-' :: m.data))) z)
        (resolveSortKey (.name (String.mk ('-' :: m.data))) x) = false := by
    intro x hx y hy z hz hxy hyz
    obtain ⟨qx, hgx⟩ := hnum x hx
    obtain ⟨qy, hgy⟩ := hnum y hy
    obtain ⟨qz, hgz⟩ := hnum z hz
    rw [resolveSortKey_desc, resolveSortKey_desc, hgx, hgy, jsNeg_num, jsNeg_num, jsLt_num] at hxy
    rw [resolveSortKey_desc, resolveSortKey_desc, hgy, hgz, jsNeg_num, jsNeg_num, jsLt_num] at hyz
    rw [resolveSortKey_desc, resolveSortKey_desc, hgx, hgz, jsNeg_num, jsNeg_num, jsLt_num]
    simp only [decide_eq_false_iff_not, not_lt] at hxy hyz ⊢
    linarith
  have hpw := sort_pairwise (.name (String.mk ('-' :: m.data))) list htr
  refine hpw.imp_of_mem ?_
  intro a b ha hb hab
  have hamem : a ∈ list := hperm.mem_iff.mp ha
  have hbmem : b ∈ list := hperm.mem_iff.mp hb
  obtain ⟨qa, hga⟩ := hnum a hamem
  obtain ⟨qb, hgb⟩ := hnum b hbmem
  rw [resolveSortKey_desc, resolveSortKey_desc, hga, hgb, jsNeg_num, jsNeg_num, jsLt_num] at hab
  rw [hga, hgb, jsLt_num]
  simp only [decide_eq_false_iff_not, not_lt] at hab ⊢
  linarith

/-- Claim C9 witness: sorting by the descending age marker arranges
[{age:101},{age:-400},{age:314}] in descending age order (a permutation,
pairwise non-ascending never holds against the order). -/
theorem sort_desc_numeric_witness :
    (Q.sort (.name (String.mk ('-' :: "age".data)))
        [[("age", JVal.num (.of 101))], [("age", JVal.num (.of (-400)))],
         [("age", JVal.num (.of 314))]]).Perm
      [[("age", JVal.num (.of 101))], [("age", JVal.num (.of (-400)))],
       [("age", JVal.num (.of 314))]] ∧
    (Q.sort (.name (String.mk ('-' :: "age".data)))
        [[("age", JVal.num (.of 101))], [("age", JVal.num (.of (-400)))],
         [("age", JVal.num (.of 314))]]).Pairwise
      (fun d e => jsLt (getF d "age") (getF e "age") = false) :=
  sort_desc_numeric "age"
    [[("age", JVal.num (.of 101))], [("age", JVal.num (.of (-400)))],
     [("age", JVal.num (.of 314))]]
    (by
      intro d hd
      simp only [List.mem_cons, List.not_mem_nil, or_false] at hd
      rcases hd with rfl | rfl | rfl <;> exact ⟨_, rfl⟩)

/-- Claim C7 witness: Q.single({a:4}, [{a:1},{a:2},{a:3}]) is the absent
sentinel. -/
theorem single_first_match_witness :
    single (.spec [("a", JVal.num (.of 4))])
      [[("a", JVal.num (.of 1))], [("a", JVal.num (.of 2))], [("a", JVal.num (.of 3))]] = none :=
  (single_first_match (.spec [("a", JVal.num (.of 4))])
    [[("a", JVal.num (.of 1))], [("a", JVal.num (.of 2))], [("a", JVal.num (.of 3))]]).1.mpr
    (by decide)

end Q
